import Mathlib

/-!
Verification development for `cursorup` (src/lib.rs, src/main.rs), a
command-line updater for the Cursor editor.  The Rust code is shallowly
embedded: every side-effecting operation is represented by an `Event`, the
outcome of the surrounding function by `Res`, and the behaviour of the
outside world (network responses, subprocess results, environment
variables, success/failure of individual filesystem calls) by explicit
"world" records that are passed as arguments.  All definitions are
computable and follow the source line by line; the doc comment of each
definition names the Rust item it embeds.
-/

/-- A side effect that actually happened (events are recorded only for
operations that succeeded, except `spawn`, which records that the
subprocess was started, and `removeDirAll`, which records the attempted
recursive deletion whose result the code discards). -/
inductive Event where
  | setPerms (path : String) (mode : Nat)
  | spawn (program : String) (arg : String) (cwd : String)
  | createDirAll (path : String)
  | rename (src : String) (dst : String)
  | copy (src : String) (dst : String)
  | createFile (path : String)
  | writeChunk (path : String) (bytes : List Nat)
  | writeFile (path : String) (contents : String)
  | printLine (line : String)
  | removeDirAll (path : String)
deriving DecidableEq

/-- `true` exactly on `Event.copy` events (a `fs::copy` that succeeded). -/
def Event.isCopy : Event → Bool
  | .copy _ _ => true
  | _ => false

/-- `true` exactly on `Event.rename` events. -/
def Event.isRename : Event → Bool
  | .rename _ _ => true
  | _ => false

/-- Outcome of an embedded Rust function: `Ok(())`, `Err(e)` (with the
error's display text), or a panic. -/
inductive Res where
  | ok
  | err (msg : String)
  | panicked (msg : String)
deriving DecidableEq

/-- `true` exactly on `Res.panicked`. -/
def Res.isPanic : Res → Bool
  | .panicked _ => true
  | _ => false

/-- `PathBuf::join` with a single further component, rendered on strings
(paths in this development are plain strings joined by `/`). -/
def pjoin (dir : String) (component : String) : String :=
  dir ++ "/" ++ component

/-- Rust `Path::extension` on a file name: the portion of the name after
the final `.`, or `None` when the name has no `.` or its only `.` is the
leading character (hidden files such as `.png` have no extension). -/
def rustExtension (name : String) : Option String :=
  let r := name.toList.reverse
  let afterRev := r.takeWhile (fun c => c ≠ '.')
  if afterRev.length = r.length then none
  else if r.length - afterRev.length - 1 = 0 then none
  else some (String.mk afterRev.reverse)

/-- Split a character list at `/` (the semantics of `split('/')` /
`splitOn "/"`, written recursively so that it evaluates by kernel
reduction). -/
def splitSegs : List Char → List (List Char)
  | [] => [[]]
  | c :: cs =>
    match splitSegs cs with
    | [] => [[]]
    | s :: rest => if c = '/' then [] :: s :: rest else (c :: s) :: rest

/-- `split('/')` on a string. -/
def splitSlash (s : String) : List String :=
  (splitSegs s.toList).map (fun l => String.mk l)

/-- Rust `Path::file_name` rendered on string paths: the last non-empty,
non-`.` component, or `None` for paths terminating in `..` or having no
component at all. -/
def rustFileName (p : String) : Option String :=
  let comps := (splitSlash p).filter (fun c => c ≠ "" ∧ c ≠ ".")
  match comps.getLast? with
  | none => none
  | some c => if c = ".." then none else some c

/-- A direct entry of a directory, as yielded by `tokio::fs::read_dir`:
its file name and whether `path.is_dir()` holds.  Entry names are modelled
as UTF-8 strings. -/
structure DirEntry where
  name : String
  isDir : Bool
deriving DecidableEq

/-- The observable state of the install directory: its direct entries and
the file names inside its `back` subdirectory. -/
structure DirState where
  entries : List DirEntry
  backFiles : List String
deriving DecidableEq

/-- `true` on entries that `back_file` renames: regular files (directories
are skipped) whose extension is exactly `AppImage` or exactly `png`
(`lib.rs:163-168`). -/
def backupTarget (e : DirEntry) : Bool :=
  !e.isDir && (rustExtension e.name == some "AppImage"
            || rustExtension e.name == some "png")

/-- POSIX `rename(2)` into `back/`: the destination entry, if it already
exists, is atomically replaced (Unix semantics of `std::fs::rename`, which
`tokio::fs::rename` wraps; the crate is Unix-only, cf. the
`std::os::unix::fs::PermissionsExt` import).  On the name list this is
remove-then-append. -/
def replaceAdd (l : List String) (n : String) : List String :=
  l.filter (fun x => x ≠ n) ++ [n]

/-- The `while let Some(entry) = entries.next_entry()` loop of `back_file`
(`lib.rs:160-179`), iterating over the directory listing `l`: directories
are skipped; every regular file whose extension is `AppImage` or `png` is
renamed to `back/<name>.bak`.  `ok name` says whether the rename of `name`
succeeds; on a failed rename the error propagates (`?`) and the loop
stops.  A successful rename removes the entry from the directory and
places `<name>.bak` into `back/`, replacing any existing file of that name
(POSIX rename overwrite). -/
def backLoop (dir : String) (ok : String → Bool) :
    List DirEntry → DirState → List Event × DirState × Res
  | [], st => ([], st, .ok)
  | e :: rest, st =>
    if backupTarget e then
      if ok e.name then
        let bak := e.name ++ ".bak"
        let st' : DirState :=
          { entries := st.entries.filter (fun x => !(x.name == e.name))
            backFiles := replaceAdd st.backFiles bak }
        let out := backLoop dir ok rest st'
        (Event.rename (pjoin dir e.name) (pjoin (pjoin dir "back") bak) :: out.1,
         out.2)
      else ([], st, .err "rename failed")
    else backLoop dir ok rest st

/-- The effect of `create_dir_all(dir/back)` on the directory listing:
add the `back` subdirectory when it is not already present. -/
def ensureBack (st : DirState) : DirState :=
  if st.entries.any (fun e => e.name == "back" && e.isDir) then st
  else { st with entries := st.entries ++ [⟨"back", true⟩] }

/-- `back_file` (`lib.rs:155-181`): `create_dir_all(dir/back)` (failing if
a regular file named `back` occupies the name), then the rename loop over
the directory listing.  The listing passed to the loop is the state's
entry list after the `back` directory was ensured. -/
def back_file (dir : String) (ok : String → Bool) (st : DirState) :
    List Event × DirState × Res :=
  if st.entries.any (fun e => e.name == "back" && !e.isDir) then
    ([], st, .err "failed to create back directory")
  else
    let st1 := ensureBack st
    let out := backLoop dir ok st1.entries st1
    (Event.createDirAll (pjoin dir "back") :: out.1, out.2)

/-- Rust `OsStr`, abstracted by its one observation this program makes,
`to_str : OsStr -> Option<&str>`: an OS string either is valid UTF-8 and
decodes to `s`, or is not (distinct invalid byte strings are told apart by
a tag). -/
inductive OsString where
  | utf8 (s : String)
  | nonUtf8 (tag : Nat)
deriving DecidableEq

/-- `OsStr::to_str` / `Path::to_str`. -/
def OsString.toStr : OsString → Option String
  | .utf8 s => some s
  | .nonUtf8 _ => none

/-- The rendered contents of the `[Desktop Entry]` file
(`lib.rs:138-148`), with the `Exec` and `Icon` paths substituted. -/
def desktopContents (execPath : String) (iconPath : String) : String :=
  "[Desktop Entry]\nName=Cursor\nExec=" ++ execPath ++ "\nIcon=" ++ iconPath
    ++ "\nType=Application\nCategories=Utility;Development;\nTerminal=false"

/-- `echo_2_desktop` (`lib.rs:137-153`): renders the desktop entry.  The
two `to_str().unwrap()` calls panic when a path is not valid UTF-8 (the
artifact path is unwrapped first).  Then `HOME` is read (`Err` if unset)
and the file is written to `<home>/.local/share/applications/cursor.desktop`,
`writeOk` saying whether `fs::write` succeeds. -/
def echo_2_desktop (appimagePath : OsString) (iconPath : OsString)
    (home : Option String) (writeOk : Bool) : List Event × Res :=
  match appimagePath.toStr with
  | none => ([], .panicked "called Option::unwrap on a None value")
  | some execStr =>
    match iconPath.toStr with
    | none => ([], .panicked "called Option::unwrap on a None value")
    | some iconStr =>
      match home with
      | none => ([], .err "environment variable not found")
      | some h =>
        if writeOk then
          ([Event.writeFile (pjoin h ".local/share/applications/cursor.desktop")
              (desktopContents execStr iconStr)], .ok)
        else ([], .err "failed to write desktop file")

/-- The environment `install` runs against: success of each fallible
operation in program order, the extraction subprocess's outcome, the
`HOME` variable and the install directory's state. -/
structure IWorld where
  /-- `fs::metadata(appimage_path)` succeeds (`lib.rs:93`). -/
  metaOk : Bool
  /-- `fs::set_permissions` succeeds (`lib.rs:95`). -/
  setPermsOk : Bool
  /-- spawning the subprocess (`Command::output`) itself succeeds (`lib.rs:100-104`). -/
  spawnOk : Bool
  /-- the error text when spawning fails. -/
  spawnErr : String
  /-- the subprocess's exit status is success (`lib.rs:106`). -/
  extractSuccess : Bool
  /-- the subprocess's captured standard error, lossily decoded (`lib.rs:109`). -/
  extractStderr : String
  /-- the `HOME` environment variable (`lib.rs:117`, read again at `lib.rs:149`). -/
  home : Option String
  /-- `fs::create_dir_all(dest_dir)` succeeds (`lib.rs:119`). -/
  createDestOk : Bool
  /-- the install directory's contents when `install` runs. -/
  destState : DirState
  /-- whether the backup rename of a given file name succeeds (`lib.rs:175`). -/
  renameOk : String → Bool
  /-- `fs::copy` of the icon succeeds (`lib.rs:126`, fails e.g. when the
  extracted tree has no `code.png`). -/
  copyIconOk : Bool
  /-- `fs::copy` of the artifact succeeds (`lib.rs:130`). -/
  copyAppOk : Bool
  /-- `fs::write` of the desktop entry succeeds (`lib.rs:151`). -/
  writeDesktopOk : Bool

/-- The install directory: `$HOME/Applications/cursor` (`lib.rs:117-118`). -/
def destDirOf (home : String) : String :=
  pjoin (pjoin home "Applications") "cursor"

/-- `install` (`lib.rs:86-135`).  In source order: read the artifact's
metadata and set mode `0o755`; run the artifact with `--appimage-extract`
in the scratch directory, failing with the formatted extraction error
(which embeds the captured stderr) on a non-success exit; resolve
`HOME` and create `$HOME/Applications/cursor`; run `back_file` on it;
copy `squashfs-root/code.png` to the install directory; copy the artifact
under its original file name (`file_name().unwrap()` panics when the path
has no file name); finally call `echo_2_desktop`.  The `_version`
argument is unused by the source (`lib.rs:88`). -/
def install (appimagePath : String) ( _version : String) (tmpDir : String)
    (w : IWorld) : List Event × Res :=
  if !w.metaOk then ([], .err "failed to read metadata") else
  if !w.setPermsOk then ([], .err "failed to set permissions") else
  let ev1 : List Event := [.setPerms appimagePath 493]
  if !w.spawnOk then (ev1, .err w.spawnErr) else
  let ev2 : List Event := ev1 ++ [.spawn appimagePath "--appimage-extract" tmpDir]
  if !w.extractSuccess then
    (ev2, .err ("AppImage extraction failed: " ++ w.extractStderr)) else
  match w.home with
  | none => (ev2, .err "environment variable not found")
  | some h =>
    let destDir := destDirOf h
    if !w.createDestOk then (ev2, .err "failed to create destination directory") else
    let ev3 := ev2 ++ [.createDirAll destDir]
    let bf := back_file destDir w.renameOk w.destState
    let ev4 := ev3 ++ bf.1
    match bf.2.2 with
    | .err m => (ev4, .err m)
    | .panicked m => (ev4, .panicked m)
    | .ok =>
      if !w.copyIconOk then (ev4, .err "failed to copy icon") else
      let iconDest := pjoin destDir "code.png"
      let ev5 := ev4 ++
        [.copy (pjoin (pjoin tmpDir "squashfs-root") "code.png") iconDest]
      match rustFileName appimagePath with
      | none => (ev5, .panicked "called Option::unwrap on a None value")
      | some name =>
        if !w.copyAppOk then (ev5, .err "failed to copy artifact") else
        let appDest := pjoin destDir name
        let ev6 := ev5 ++ [.copy appimagePath appDest]
        let ed := echo_2_desktop (.utf8 appDest) (.utf8 iconDest) w.home
          w.writeDesktopOk
        (ev6 ++ ed.1, ed.2)

/-- The HTTP response the Downloader receives (`reqwest::get`): whether
the request itself completed, the status, the declared content length,
and the body chunks in arrival order (`tailErr` is a transport error
raised by `chunk()` after the listed chunks, if any). -/
structure HttpResp where
  getOk : Bool
  getErr : String
  statusSuccess : Bool
  statusText : String
  contentLength : Option Nat
  chunks : List (List Nat)
  tailErr : Option String
deriving DecidableEq

/-- One progress line (`lib.rs:71-76`): the percentage
`downloaded / total * 100` and the two sizes in mebibytes
(`bytes / 1_048_576`).  The `f64` arithmetic is modelled exactly over
`ℚ`. -/
structure Report where
  pct : ℚ
  downMB : ℚ
  totalMB : ℚ
deriving DecidableEq

/-- Environment for one `download_file` call: the response, whether
`File::create` succeeds, and the index of the first failing
`write_all`, if any. -/
structure DlWorld where
  resp : HttpResp
  createOk : Bool
  writeFailAt : Option Nat
deriving DecidableEq

/-- Result of `download_file`: the events, the progress lines in order,
the destination file's content (`none` when it was never created), and
the outcome. -/
structure DlOut where
  events : List Event
  reports : List Report
  file : Option (List Nat)
  res : Res
deriving DecidableEq

/-- The download loop (`lib.rs:65-78`): write each chunk, add its length
to the running count, and print the progress line.  `idx` numbers the
chunks so that `failAt` can select a failing write; a failed write stops
the loop with the error, writing nothing of that chunk.  After the last
chunk, `chunk()` either signals end of stream or fails with `tailErr`. -/
def dlLoop (dest : String) (total : Nat) (failAt : Option Nat)
    (tailErr : Option String) :
    List (List Nat) → Nat → Nat → List Event × List Report × List Nat × Res
  | [], _, _ =>
    ([], [], [], match tailErr with | some e => .err e | none => .ok)
  | c :: rest, idx, downloaded =>
    if failAt = some idx then ([], [], [], .err "failed to write chunk")
    else
      let downloaded' := downloaded + c.length
      let rep : Report :=
        ⟨(downloaded' : ℚ) / (total : ℚ) * 100,
         (downloaded' : ℚ) / 1048576, (total : ℚ) / 1048576⟩
      let out := dlLoop dest total failAt tailErr rest (idx + 1) downloaded'
      (Event.writeChunk dest c :: out.1, rep :: out.2.1,
       c ++ out.2.2.1, out.2.2.2)

/-- `download_file` (`lib.rs:50-84`): GET the URL; fail with the
status-bearing error when the status is not success; fail with the
content-length error when the response declares no length; only then
create the destination file and stream the chunks. -/
def download_file (url : String) (dest : String) (w : DlWorld) : DlOut :=
  if !w.resp.getOk then ⟨[], [], none, .err w.resp.getErr⟩
  else if !w.resp.statusSuccess then
    ⟨[], [], none, .err ("Download failed with status: " ++ w.resp.statusText)⟩
  else
    match w.resp.contentLength with
    | none => ⟨[], [], none, .err "Failed to get content length"⟩
    | some total =>
      if !w.createOk then ⟨[], [], none, .err "failed to create file"⟩
      else
        let out := dlLoop dest total w.writeFailAt w.resp.tailErr
          w.resp.chunks 0 0
        ⟨Event.createFile dest :: out.1, out.2.1, some out.2.2.1, out.2.2.2⟩

/-- A JSON value; objects are association lists of fields in document
order. -/
inductive Json where
  | null
  | bool (b : Bool)
  | num (n : Int)
  | str (s : String)
  | arr (l : List Json)
  | obj (fields : List (String × Json))

/-- The four-field record `Resp` (`lib.rs:33-42`); `downloadUrl`,
`commitSha` and `rehUrl` are serde-renamed onto the snake-case fields. -/
structure Resp where
  version : String
  download_url : String
  commit_sha : String
  reh_url : String
deriving DecidableEq

/-- The four slots of serde's derived `Deserialize` visitor for `Resp`,
filled as the object's fields are walked. -/
structure Slots where
  v : Option String
  d : Option String
  c : Option String
  r : Option String
deriving DecidableEq

/-- Consuming one occurrence of a known field: a second occurrence is a
`duplicate field` error, a non-string value an `invalid type` error. -/
def setSlot (slot : Option String) (j : Json) (fname : String) :
    Except String (Option String) :=
  match slot with
  | some _ => .error ("duplicate field " ++ fname)
  | none =>
    match j with
    | .str x => .ok (some x)
    | _ => .error ("invalid type for field " ++ fname)

/-- Processing of one object field by the derived visitor: the four
consumed keys update their slot, unknown keys are skipped (serde's
default). -/
def stepField (sl : Slots) (k : String) (j : Json) : Except String Slots :=
  if k = "version" then (setSlot sl.v j "version").map (fun x => { sl with v := x })
  else if k = "downloadUrl" then
    (setSlot sl.d j "downloadUrl").map (fun x => { sl with d := x })
  else if k = "commitSha" then
    (setSlot sl.c j "commitSha").map (fun x => { sl with c := x })
  else if k = "rehUrl" then (setSlot sl.r j "rehUrl").map (fun x => { sl with r := x })
  else .ok sl

/-- The field-visiting loop of serde's derived `Deserialize` for `Resp`:
walk the object's fields in order, processing each with `stepField` and
propagating the first error. -/
def collectFields : List (String × Json) → Slots → Except String Slots
  | [], sl => .ok sl
  | (k, j) :: rest, sl =>
    match stepField sl k j with
    | .error e => .error e
    | .ok sl2 => collectFields rest sl2

/-- Deserialization of the metadata body into `Resp`
(`.json::<Resp>()`, `lib.rs:46`, schema `lib.rs:33-42`): the body must be
a JSON object; the four consumed fields must each be present as strings;
anything else is a decode error. -/
def decodeResp : Json → Except String Resp
  | .obj fields =>
    match collectFields fields ⟨none, none, none, none⟩ with
    | .error e => .error e
    | .ok ⟨some v, some d, some c, some r⟩ => .ok ⟨v, d, c, r⟩
    | .ok ⟨none, _, _, _⟩ => .error "missing field version"
    | .ok ⟨some _, none, _, _⟩ => .error "missing field downloadUrl"
    | .ok ⟨some _, some _, none, _⟩ => .error "missing field commitSha"
    | .ok ⟨some _, some _, some _, none⟩ => .error "missing field rehUrl"
  | _ => .error "invalid type: expected a JSON object"

/-- `true` exactly on JSON objects. -/
def Json.isObj : Json → Bool
  | .obj _ => true
  | _ => false

/-- `impl Drop for TmpDir` (`lib.rs:25-30`): print the cleanup line, then
attempt `remove_dir_all`; the deletion's result is discarded
(`let _ = ...`), so `removeOk` is deliberately unread — the emitted
events are the same whether the deletion succeeds or fails. -/
def tmpDirDrop (path : String) (removeOk : Bool) : List Event :=
  [Event.printLine ("Cleaning up temporary directory: \"" ++ path ++ "\""),
   Event.removeDirAll path]

/-- The environment of a whole `run`: the metadata fetch's outcome, the
system temp root (`std::env::temp_dir()`), whether the scratch directory
can be created, the download environment, the install environment, and
whether the final recursive deletion succeeds. -/
structure World where
  metadataRes : Except String Resp
  tempRoot : String
  createTmpOk : Bool
  dl : DlWorld
  inst : IWorld
  removeOk : Bool

/-- The scratch directory of a run: `temp_dir()/cursorup_temp`
(`lib.rs:20`). -/
def World.tmpPath (w : World) : String :=
  pjoin w.tempRoot "cursorup_temp"

/-- `run` (`lib.rs:183-203`): fetch the metadata (on failure the guard
was never created and nothing is cleaned up); construct the `TmpDir`
guard; create the scratch directory; derive the artifact file name from
the download URL (`split('/').last()`); download; install.  Whatever the
body's outcome — including a panic, which unwinds through the guard —
the guard's `Drop` runs when the scope ends, appending its events; the
body's result is returned unchanged. -/
def run (w : World) : List Event × Res :=
  match w.metadataRes with
  | .error e => ([], .err e)
  | .ok md =>
    let tmpPath := w.tmpPath
    let body : List Event × Res :=
      if !w.createTmpOk then ([], .err "failed to create temp directory")
      else
        let fileName := (splitSlash md.download_url).getLastD "cursor-download.tmp"
        let appimagePath := pjoin tmpPath fileName
        let d := download_file md.download_url appimagePath w.dl
        match d.res with
        | .ok =>
          let i := install appimagePath md.version tmpPath w.inst
          (Event.createDirAll tmpPath :: (d.events ++ i.1), i.2)
        | r => (Event.createDirAll tmpPath :: d.events, r)
    (body.1 ++ tmpDirDrop tmpPath w.removeOk, body.2)

/-- Running byte counts after each chunk, starting from `d` bytes already
downloaded (the values of `downloaded` at each progress line of the
download loop). -/
def accSums (d : Nat) : List (List Nat) → List Nat
  | [] => []
  | c :: rest => (d + c.length) :: accSums (d + c.length) rest

/-- `true` exactly on JSON strings. -/
def Json.isStr : Json → Bool
  | .str _ => true
  | _ => false

/-- The string value of field `k` of an object's field list: `some s`
when the first occurrence of `k` carries a JSON string `s`. -/
def lookupStr (k : String) (fields : List (String × Json)) : Option String :=
  match fields.lookup k with
  | some (.str s) => some s
  | _ => none

/-- Field `k`, when present, carries a JSON string. -/
def typeOkFor (k : String) (fields : List (String × Json)) : Bool :=
  match fields.lookup k with
  | some j => j.isStr
  | none => true

/-- Each of the four consumed fields, when present, carries a JSON
string. -/
def typeOkAll (fields : List (String × Json)) : Bool :=
  typeOkFor "version" fields && typeOkFor "downloadUrl" fields &&
    typeOkFor "commitSha" fields && typeOkFor "rehUrl" fields

/-- A concrete fully-benign install environment over a directory holding
a previous artifact and icon (used to instantiate theorems at a concrete
input). -/
def installWorld1 : IWorld :=
  { metaOk := true, setPermsOk := true, spawnOk := true, spawnErr := "",
    extractSuccess := true, extractStderr := "", home := some "/home/u",
    createDestOk := true,
    destState := ⟨[⟨"cursor.AppImage", false⟩, ⟨"code.png", false⟩], []⟩,
    renameOk := fun _ => true, copyIconOk := true, copyAppOk := true,
    writeDesktopOk := true }

/-- A concrete run environment whose metadata fetch succeeds and whose
scratch-directory creation fails (used to instantiate run-level theorems
at a concrete input). -/
def runWorld1 : World :=
  { metadataRes := .ok ⟨"1.0", "https://d/c.AppImage", "sha", "reh"⟩,
    tempRoot := "/tmp", createTmpOk := false,
    dl := ⟨⟨true, "", true, "200 OK", some 0, [], none⟩, true, none⟩,
    inst := installWorld1, removeOk := false }

/-! ## Theorems -/

/-- C10: `install`'s behaviour is independent of the version string it is
passed — with the same artifact path, scratch directory and environment,
any two version arguments give identical events and identical results
(the `_version` parameter is unused, `lib.rs:88`). -/
theorem c10_install_version_independent
    (appimagePath tmpDir : String) (w : IWorld) (v1 v2 : String) :
    install appimagePath v1 tmpDir w = install appimagePath v2 tmpDir w := rfl

/-- C9: the Desktop-Entry Writer panics exactly when one of the two paths
it is given is not valid UTF-8 (the `to_str().unwrap()` calls,
`lib.rs:146-147`); for valid-UTF-8 path pairs the panic branch is
unreachable. -/
theorem c9_echo_panics_iff_non_utf8
    (a i : OsString) (home : Option String) (writeOk : Bool) :
    (echo_2_desktop a i home writeOk).2.isPanic = true ↔
      (a.toStr = none ∨ i.toStr = none) := by
  cases a <;> cases i <;> cases home <;>
    simp [echo_2_desktop, OsString.toStr, Res.isPanic] <;>
    cases writeOk <;> simp [Res.isPanic]

/-- C3: the Downloader fails before creating the destination file or
writing any content, with the status-bearing `DownloadError`, when the
HTTP status is not success; and likewise (with the content-length error)
when the response declares no content length (`lib.rs:54-60`). -/
theorem c3_download_early_failures (url dest : String) (w : DlWorld) :
    (w.resp.getOk = true → w.resp.statusSuccess = false →
      download_file url dest w =
        ⟨[], [], none,
         .err ("Download failed with status: " ++ w.resp.statusText)⟩) ∧
    (w.resp.getOk = true → w.resp.statusSuccess = true →
      w.resp.contentLength = none →
      download_file url dest w =
        ⟨[], [], none, .err "Failed to get content length"⟩) := by
  constructor <;> intros <;> simp [download_file, *]

/-- C3 witness: a 404 download and a length-less download, both failing
up front with no file. -/
theorem c3_download_early_failures_witness :
    download_file "https://u" "/tmp/f"
        ⟨⟨true, "", false, "404 Not Found", some 7, [[1]], none⟩, true, none⟩ =
      ⟨[], [], none, .err "Download failed with status: 404 Not Found"⟩ ∧
    download_file "https://u" "/tmp/f"
        ⟨⟨true, "", true, "200 OK", none, [[1]], none⟩, true, none⟩ =
      ⟨[], [], none, .err "Failed to get content length"⟩ :=
  ⟨(c3_download_early_failures "https://u" "/tmp/f" _).1 rfl rfl,
   (c3_download_early_failures "https://u" "/tmp/f" _).2 rfl rfl rfl⟩

/-- C2: when the extraction subprocess exits non-zero, `install` returns
the extraction error carrying the captured stderr, and its event trace is
just the permission change and the spawn — in particular nothing was
copied anywhere, so the install directory is untouched
(`lib.rs:106-112`). -/
theorem c2_extraction_failure (ap v tp : String) (w : IWorld)
    (h1 : w.metaOk = true) (h2 : w.setPermsOk = true)
    (h3 : w.spawnOk = true) (h4 : w.extractSuccess = false) :
    install ap v tp w =
      ([.setPerms ap 493, .spawn ap "--appimage-extract" tp],
       .err ("AppImage extraction failed: " ++ w.extractStderr)) ∧
    ∀ e ∈ (install ap v tp w).1, e.isCopy = false := by
  refine ⟨?_, ?_⟩ <;> simp [install, h1, h2, h3, h4, Event.isCopy]

/-- C2 witness: a concrete failing extraction, with stderr `boom`. -/
theorem c2_extraction_failure_witness :
    install "/tmp/cursorup_temp/a.AppImage" "1.0" "/tmp/cursorup_temp"
      { metaOk := true, setPermsOk := true, spawnOk := true, spawnErr := "",
        extractSuccess := false, extractStderr := "boom",
        home := some "/home/u", createDestOk := true,
        destState := ⟨[⟨"cursor.AppImage", false⟩], []⟩,
        renameOk := fun _ => true, copyIconOk := true, copyAppOk := true,
        writeDesktopOk := true } =
      ([.setPerms "/tmp/cursorup_temp/a.AppImage" 493,
        .spawn "/tmp/cursorup_temp/a.AppImage" "--appimage-extract"
          "/tmp/cursorup_temp"],
       .err ("AppImage extraction failed: boom")) :=
  (c2_extraction_failure _ _ _ _ rfl rfl rfl rfl).1

/-- Every event the backup loop emits is a rename. -/
theorem backLoop_events_rename (dir : String) (ok : String → Bool) :
    ∀ (l : List DirEntry) (st : DirState),
      ∀ e ∈ (backLoop dir ok l st).1, e.isRename = true := by
  intro l
  induction l with
  | nil => intro st e he; simp [backLoop] at he
  | cons x rest ih =>
    intro st e he
    by_cases hx : backupTarget x
    · by_cases hok : ok x.name
      · simp [backLoop, hx, hok] at he
        rcases he with he | he
        · subst he; rfl
        · exact ih _ e he
      · simp [backLoop, hx, hok] at he
    · simpa [backLoop, hx] using ih _ e (by simpa [backLoop, hx] using he)

/-- When the backup loop completes without error, every backup-target
entry of the listing has had its rename into `back/` emitted. -/
theorem backLoop_complete (dir : String) (ok : String → Bool) :
    ∀ (l : List DirEntry) (st : DirState),
      (backLoop dir ok l st).2.2 = .ok →
      ∀ e ∈ l, backupTarget e = true →
        Event.rename (pjoin dir e.name)
            (pjoin (pjoin dir "back") (e.name ++ ".bak"))
          ∈ (backLoop dir ok l st).1 := by
  intro l
  induction l with
  | nil => intro st _ e he; simp at he
  | cons x rest ih =>
    intro st hok e he ht
    by_cases hx : backupTarget x
    · by_cases hkk : ok x.name
      · simp only [backLoop, hx, if_true, hkk] at hok ⊢
        rcases List.mem_cons.mp he with he | he
        · subst he; exact List.mem_cons_self _ _
        · exact List.mem_cons_of_mem _ (ih _ hok e he ht)
      · simp [backLoop, hx, hkk] at hok
    · rcases List.mem_cons.mp he with he | he
      · subst he; exact absurd ht (by simpa using hx)
      · simpa [backLoop, hx] using ih _ (by simpa [backLoop, hx] using hok) e he ht

/-- No event of `back_file` is a copy. -/
theorem back_file_no_copy (dir : String) (ok : String → Bool) (st : DirState) :
    ∀ e ∈ (back_file dir ok st).1, e.isCopy = false := by
  intro e
  by_cases hc : st.entries.any (fun e => e.name == "back" && !e.isDir)
  · intro he; simp [back_file, hc] at he
  · intro he
    simp only [back_file, hc, if_false] at he
    rcases List.mem_cons.mp he with he | he
    · subst he; rfl
    · have := backLoop_events_rename dir ok (ensureBack st).entries (ensureBack st) e he
      cases e <;> simp_all [Event.isRename, Event.isCopy]

/-- With every rename succeeding, the backup loop never fails. -/
theorem backLoop_ok (dir : String) :
    ∀ (l : List DirEntry) (st : DirState),
      (backLoop dir (fun _ => true) l st).2.2 = .ok := by
  intro l
  induction l with
  | nil => intro st; rfl
  | cons x rest ih =>
    intro st
    by_cases hx : backupTarget x <;> simp [backLoop, hx, ih]

/-- With every rename succeeding, the backup loop emits exactly one
rename per backup-target entry of the listing, in listing order. -/
theorem backLoop_events (dir : String) :
    ∀ (l : List DirEntry) (st : DirState),
      (backLoop dir (fun _ => true) l st).1 =
        l.filterMap (fun e =>
          if backupTarget e then
            some (Event.rename (pjoin dir e.name)
              (pjoin (pjoin dir "back") (e.name ++ ".bak")))
          else none) := by
  intro l
  induction l with
  | nil => intro st; rfl
  | cons x rest ih =>
    intro st
    by_cases hx : backupTarget x <;> simp [backLoop, hx, ih]

/-- With every rename succeeding, an entry survives in the directory
exactly when no backup-target entry of the listing bears its name. -/
theorem backLoop_entries (dir : String) :
    ∀ (l : List DirEntry) (st : DirState),
      (backLoop dir (fun _ => true) l st).2.1.entries =
        st.entries.filter
          (fun x => !(l.any (fun e => backupTarget e && e.name == x.name))) := by
  intro l
  induction l with
  | nil => intro st; simp [backLoop]
  | cons x rest ih =>
    intro st
    by_cases hx : backupTarget x
    · simp only [backLoop, hx, if_true, ih, List.filter_filter]
      apply List.filter_congr
      intro a _
      have hcm : (x.name == a.name) = (a.name == x.name) := by
        by_cases hn : a.name = x.name <;> simp [hn, Ne.symm, eq_comm]
      by_cases hn : a.name = x.name <;> simp [hx, hn, hcm, eq_comm, Bool.and_comm]
    · simp only [backLoop, hx, Bool.false_eq_true, if_false, ih]
      apply List.filter_congr
      intro a _
      simp [hx]

/-- Membership in `replaceAdd`: the destination slot holds `n` plus every
previous name other than overwritten occurrences of `n`. -/
theorem mem_replaceAdd (l : List String) (n b : String) :
    b ∈ replaceAdd l n ↔ b ∈ l ∨ b = n := by
  constructor
  · intro hb
    rcases List.mem_append.mp hb with hb | hb
    · exact Or.inl (List.mem_of_mem_filter hb)
    · simp at hb; exact Or.inr hb
  · intro hb
    rcases hb with hb | hb
    · by_cases hbn : b = n
      · subst hbn; exact List.mem_append_right _ (by simp)
      · exact List.mem_append_left _ (List.mem_filter.mpr ⟨hb, by simp [hbn]⟩)
    · subst hb; exact List.mem_append_right _ (by simp)

/-- With every rename succeeding, `back/` afterwards holds exactly the
previous backups plus `<name>.bak` for each backup-target entry of the
listing. -/
theorem backLoop_backFiles (dir : String) :
    ∀ (l : List DirEntry) (st : DirState) (b : String),
      b ∈ (backLoop dir (fun _ => true) l st).2.1.backFiles ↔
        b ∈ st.backFiles ∨
          ∃ e ∈ l, backupTarget e = true ∧ b = e.name ++ ".bak" := by
  intro l
  induction l with
  | nil => intro st b; simp [backLoop]
  | cons x rest ih =>
    intro st b
    by_cases hx : backupTarget x
    · simp only [backLoop, hx, if_true, ih, mem_replaceAdd]
      constructor
      · rintro ((hb | hb) | ⟨e, he, ht, hb⟩)
        · exact Or.inl hb
        · exact Or.inr ⟨x, List.mem_cons_self _ _, hx, hb⟩
        · exact Or.inr ⟨e, List.mem_cons_of_mem _ he, ht, hb⟩
      · rintro (hb | ⟨e, he, ht, hb⟩)
        · exact Or.inl (Or.inl hb)
        · rcases List.mem_cons.mp he with he | he
          · subst he; exact Or.inl (Or.inr hb)
          · exact Or.inr ⟨e, he, ht, hb⟩
    · simp only [backLoop, hx, Bool.false_eq_true, if_false, ih]
      constructor
      · rintro (hb | ⟨e, he, ht, hb⟩)
        · exact Or.inl hb
        · exact Or.inr ⟨e, List.mem_cons_of_mem _ he, ht, hb⟩
      · rintro (hb | ⟨e, he, ht, hb⟩)
        · exact Or.inl hb
        · rcases List.mem_cons.mp he with he | he
          · subst he; exact absurd ht (by simpa using hx)
          · exact Or.inr ⟨e, he, ht, hb⟩

/-- C5: for every install directory (whose listing has no duplicate names
and in which any entry named `back` is the backup directory itself), the
Backup Step succeeds and renames exactly the regular-file entries with
extension exactly `AppImage` or exactly `png` into `back/<name>.bak`,
leaving every other entry in place; `back/` afterwards holds exactly the
previous backups plus the new `.bak` files. -/
theorem c5_backup_step (dir : String) (st : DirState)
    (hback : ∀ e ∈ st.entries, e.name = "back" → e.isDir = true)
    (hnd : (st.entries.map DirEntry.name).Nodup) :
    (back_file dir (fun _ => true) st).2.2 = .ok ∧
    (back_file dir (fun _ => true) st).1 =
      Event.createDirAll (pjoin dir "back") ::
        (ensureBack st).entries.filterMap (fun e =>
          if backupTarget e then
            some (Event.rename (pjoin dir e.name)
              (pjoin (pjoin dir "back") (e.name ++ ".bak")))
          else none) ∧
    (back_file dir (fun _ => true) st).2.1.entries =
      (ensureBack st).entries.filter (fun e => !backupTarget e) ∧
    ∀ b, b ∈ (back_file dir (fun _ => true) st).2.1.backFiles ↔
      b ∈ st.backFiles ∨
        ∃ e ∈ st.entries, backupTarget e = true ∧ b = e.name ++ ".bak" := by
  have hcreate : (st.entries.any fun e => e.name == "back" && !e.isDir) = false := by
    rw [Bool.eq_false_iff]
    intro hany
    rcases List.any_eq_true.mp hany with ⟨e, he, hf⟩
    rw [Bool.and_eq_true] at hf
    have h1 : e.name = "back" := by simpa using hf.1
    have h2 : e.isDir = false := by simpa using hf.2
    rw [hback e he h1] at h2
    exact Bool.noConfusion h2
  have hnoback : (st.entries.any fun e => e.name == "back" && e.isDir) = false →
      "back" ∉ st.entries.map DirEntry.name := by
    intro hcond hmem
    rcases List.mem_map.mp hmem with ⟨e, he, hname⟩
    have hd := hback e he hname
    have : (st.entries.any fun e => e.name == "back" && e.isDir) = true :=
      List.any_eq_true.mpr ⟨e, he, by simp [hname, hd]⟩
    rw [hcond] at this
    exact Bool.noConfusion this
  have hnd1 : ((ensureBack st).entries.map DirEntry.name).Nodup := by
    unfold ensureBack
    by_cases hcond : (st.entries.any fun e => e.name == "back" && e.isDir) = true
    · simpa [hcond] using hnd
    · rw [Bool.not_eq_true] at hcond
      have hnb := hnoback hcond
      simp only [hcond, Bool.false_eq_true, if_false, List.map_append, List.map_cons,
        List.map_nil]
      rw [List.nodup_append]
      exact ⟨hnd, List.nodup_singleton _, by simpa using hnb⟩
  have hmemiff : ∀ e : DirEntry, backupTarget e = true →
      (e ∈ (ensureBack st).entries ↔ e ∈ st.entries) := by
    intro e ht
    unfold ensureBack
    by_cases hcond : (st.entries.any fun e => e.name == "back" && e.isDir) = true
    · simp [hcond]
    · rw [Bool.not_eq_true] at hcond
      simp only [hcond, Bool.false_eq_true, if_false, List.mem_append,
        List.mem_singleton]
      constructor
      · rintro (hm | hm)
        · exact hm
        · subst hm; simp [backupTarget] at ht
      · exact Or.inl
  have hunfold : back_file dir (fun _ => true) st =
      (Event.createDirAll (pjoin dir "back") ::
        (backLoop dir (fun _ => true) (ensureBack st).entries (ensureBack st)).1,
       (backLoop dir (fun _ => true) (ensureBack st).entries (ensureBack st)).2) := by
    simp [back_file, hcreate]
  refine ⟨?_, ?_, ?_, ?_⟩
  · rw [hunfold]; exact backLoop_ok dir _ _
  · rw [hunfold]; simp [backLoop_events]
  · rw [hunfold]
    simp only [backLoop_entries]
    apply List.filter_congr
    intro x hxmem
    congr 1
    cases hx : backupTarget x
    · rw [Bool.eq_false_iff]
      intro hany
      rcases List.any_eq_true.mp hany with ⟨e, he, hf⟩
      rw [Bool.and_eq_true] at hf
      have hname : e.name = x.name := by simpa using hf.2
      have hex : e = x :=
        List.inj_on_of_nodup_map hnd1 he hxmem hname
      rw [hex] at hf
      rw [hf.1] at hx
      exact Bool.noConfusion hx
    · exact List.any_eq_true.mpr ⟨x, hxmem, by simp [hx]⟩
  · intro b
    have hbk : (ensureBack st).backFiles = st.backFiles := by
      unfold ensureBack; split <;> rfl
    rw [hunfold]
    simp only [backLoop_backFiles, hbk]
    constructor
    · rintro (hb | ⟨e, he, ht, hb⟩)
      · exact Or.inl hb
      · exact Or.inr ⟨e, (hmemiff e ht).mp he, ht, hb⟩
    · rintro (hb | ⟨e, he, ht, hb⟩)
      · exact Or.inl hb
      · exact Or.inr ⟨e, (hmemiff e ht).mpr he, ht, hb⟩

/-- C5 witness: the claim's concrete instance — a directory holding
`cursor.AppImage` and `code.png` is backed up to
`back/cursor.AppImage.bak` and `back/code.png.bak`, the originals are
gone, and the step succeeds. -/
theorem c5_backup_step_witness :
    (back_file "/home/u/Applications/cursor" (fun _ => true)
        ⟨[⟨"cursor.AppImage", false⟩, ⟨"code.png", false⟩], []⟩).2.2 = .ok ∧
    "cursor.AppImage.bak" ∈ (back_file "/home/u/Applications/cursor" (fun _ => true)
        ⟨[⟨"cursor.AppImage", false⟩, ⟨"code.png", false⟩], []⟩).2.1.backFiles ∧
    "code.png.bak" ∈ (back_file "/home/u/Applications/cursor" (fun _ => true)
        ⟨[⟨"cursor.AppImage", false⟩, ⟨"code.png", false⟩], []⟩).2.1.backFiles ∧
    (back_file "/home/u/Applications/cursor" (fun _ => true)
        ⟨[⟨"cursor.AppImage", false⟩, ⟨"code.png", false⟩], []⟩).2.1.entries =
      [⟨"back", true⟩] := by
  have T := c5_backup_step "/home/u/Applications/cursor"
    ⟨[⟨"cursor.AppImage", false⟩, ⟨"code.png", false⟩], []⟩
    (by decide) (by decide)
  refine ⟨T.1, ?_, ?_, ?_⟩
  · exact (T.2.2.2 _).mpr (Or.inr ⟨⟨"cursor.AppImage", false⟩, by decide, by decide, rfl⟩)
  · exact (T.2.2.2 _).mpr (Or.inr ⟨⟨"code.png", false⟩, by decide, by decide, rfl⟩)
  · rw [T.2.2.1]; decide

/-- C6 counterexample: with `cursor.AppImage` present and
`back/cursor.AppImage.bak` already occupied by a previous backup, the
Backup Step does NOT fail — `rename(2)` on Unix atomically replaces the
existing destination, so the step succeeds, the rename is performed, and
the old backup is silently overwritten (still exactly one
`cursor.AppImage.bak`). -/
theorem c6_backup_collision_counterexample :
    back_file "/d" (fun _ => true)
        ⟨[⟨"cursor.AppImage", false⟩, ⟨"back", true⟩], ["cursor.AppImage.bak"]⟩ =
      ([Event.createDirAll "/d/back",
        Event.rename "/d/cursor.AppImage" "/d/back/cursor.AppImage.bak"],
       ⟨[⟨"back", true⟩], ["cursor.AppImage.bak"]⟩, .ok) := by decide

/-- C6 as amended: when a backup-target file exists and its destination
`back/<name>.bak` is already occupied, the Backup Step succeeds — the
rename is emitted and silently replaces the occupied destination (Unix
`rename(2)` overwrite), no collision error being raised or propagated. -/
theorem c6_backup_collision_overwrites (dir name : String) (st : DirState)
    (hback : ∀ e ∈ st.entries, e.name = "back" → e.isDir = true)
    (hmem : (⟨name, false⟩ : DirEntry) ∈ st.entries)
    (htgt : backupTarget ⟨name, false⟩ = true)
    (hocc : name ++ ".bak" ∈ st.backFiles) :
    (back_file dir (fun _ => true) st).2.2 = .ok ∧
    Event.rename (pjoin dir name) (pjoin (pjoin dir "back") (name ++ ".bak"))
      ∈ (back_file dir (fun _ => true) st).1 ∧
    name ++ ".bak" ∈ (back_file dir (fun _ => true) st).2.1.backFiles := by
  have hcreate : (st.entries.any fun e => e.name == "back" && !e.isDir) = false := by
    rw [Bool.eq_false_iff]
    intro hany
    rcases List.any_eq_true.mp hany with ⟨e, he, hf⟩
    rw [Bool.and_eq_true] at hf
    have h1 : e.name = "back" := by simpa using hf.1
    have h2 : e.isDir = false := by simpa using hf.2
    rw [hback e he h1] at h2
    exact Bool.noConfusion h2
  have hmem1 : (⟨name, false⟩ : DirEntry) ∈ (ensureBack st).entries := by
    unfold ensureBack
    split
    · exact hmem
    · exact List.mem_append_left _ hmem
  have hbk : (ensureBack st).backFiles = st.backFiles := by
    unfold ensureBack; split <;> rfl
  have hunfold : back_file dir (fun _ => true) st =
      (Event.createDirAll (pjoin dir "back") ::
        (backLoop dir (fun _ => true) (ensureBack st).entries (ensureBack st)).1,
       (backLoop dir (fun _ => true) (ensureBack st).entries (ensureBack st)).2) := by
    simp [back_file, hcreate]
  refine ⟨?_, ?_, ?_⟩
  · rw [hunfold]; exact backLoop_ok dir _ _
  · rw [hunfold]
    exact List.mem_cons_of_mem _
      (backLoop_complete dir (fun _ => true) _ _ (backLoop_ok dir _ _)
        ⟨name, false⟩ hmem1 htgt)
  · rw [hunfold]
    exact (backLoop_backFiles dir _ _ _).mpr (Or.inl (hbk ▸ hocc))

/-- C6 amended-claim witness: the counterexample state, via the amended
theorem. -/
theorem c6_backup_collision_overwrites_witness :
    (back_file "/d" (fun _ => true)
        ⟨[⟨"cursor.AppImage", false⟩, ⟨"back", true⟩],
         ["cursor.AppImage.bak"]⟩).2.2 = .ok ∧
    Event.rename "/d/cursor.AppImage" "/d/back/cursor.AppImage.bak"
      ∈ (back_file "/d" (fun _ => true)
        ⟨[⟨"cursor.AppImage", false⟩, ⟨"back", true⟩],
         ["cursor.AppImage.bak"]⟩).1 ∧
    "cursor.AppImage.bak" ∈ (back_file "/d" (fun _ => true)
        ⟨[⟨"cursor.AppImage", false⟩, ⟨"back", true⟩],
         ["cursor.AppImage.bak"]⟩).2.1.backFiles :=
  c6_backup_collision_overwrites "/d" "cursor.AppImage" _
    (by decide) (by decide) (by decide) (by decide)

/-- With no write failure and no transport error, the download loop
writes every chunk, reports one progress line per chunk (percentage
`downloaded / total * 100`, sizes divided by 1,048,576), appends all
chunk bytes, and ends in success. -/
theorem dlLoop_success (dest : String) (total : Nat) :
    ∀ (chunks : List (List Nat)) (i d : Nat),
      dlLoop dest total none none chunks i d =
        (chunks.map (Event.writeChunk dest),
         (accSums d chunks).map (fun (s : Nat) =>
           ⟨(s : ℚ) / (total : ℚ) * 100, (s : ℚ) / 1048576,
            (total : ℚ) / 1048576⟩),
         chunks.flatten, .ok) := by
  intro chunks
  induction chunks with
  | nil => intro i d; simp [dlLoop, accSums]
  | cons c rest ih =>
    intro i d
    simp [dlLoop, accSums, ih]

/-- The last running byte count is the starting count plus the total of
all chunk lengths (absent when there is no chunk). -/
theorem accSums_getLast (l : List (List Nat)) :
    ∀ d, (accSums d l).getLast? =
      if l.isEmpty then none else some (d + (l.map List.length).sum) := by
  induction l with
  | nil => intro d; simp [accSums]
  | cons c rest ih =>
    intro d
    cases rest with
    | nil => simp [accSums]
    | cons c2 r2 =>
      have h3 : (accSums d (c :: c2 :: r2)).getLast? =
          (accSums (d + c.length) (c2 :: r2)).getLast? := rfl
      rw [h3, ih]
      simp [Nat.add_assoc]

/-- C4 (as amended: `N > 0`): for every declared total size `N > 0` and
chunk sequence summing to `N`, a successful run of the Downloader writes
a file of exactly `N` bytes, reports per chunk the percentage
`downloaded / total * 100` with sizes in mebibytes, and its final
reported percentage is exactly `100`. -/
theorem c4_download_completes (url dest : String) (w : DlWorld) (N : Nat)
    (h1 : w.resp.getOk = true) (h2 : w.resp.statusSuccess = true)
    (h3 : w.resp.contentLength = some N) (h4 : w.createOk = true)
    (h5 : w.writeFailAt = none) (h6 : w.resp.tailErr = none)
    (hsum : (w.resp.chunks.map List.length).sum = N) (hN : 0 < N) :
    (download_file url dest w).res = .ok ∧
    (download_file url dest w).file = some w.resp.chunks.flatten ∧
    (download_file url dest w).file.map List.length = some N ∧
    (download_file url dest w).reports =
      (accSums 0 w.resp.chunks).map (fun (s : Nat) =>
        ⟨(s : ℚ) / (N : ℚ) * 100, (s : ℚ) / 1048576, (N : ℚ) / 1048576⟩) ∧
    (download_file url dest w).reports.getLast? =
      some ⟨100, (N : ℚ) / 1048576, (N : ℚ) / 1048576⟩ := by
  have hne : w.resp.chunks ≠ [] := by
    intro hnil
    rw [hnil] at hsum
    simp at hsum
    omega
  have hout : download_file url dest w =
      ⟨Event.createFile dest ::
         w.resp.chunks.map (Event.writeChunk dest),
       (accSums 0 w.resp.chunks).map (fun (s : Nat) =>
         ⟨(s : ℚ) / (N : ℚ) * 100, (s : ℚ) / 1048576, (N : ℚ) / 1048576⟩),
       some w.resp.chunks.flatten, .ok⟩ := by
    rw [download_file]
    rw [h1, h2, h3]
    simp only [Bool.not_true, Bool.false_eq_true, if_false, h4]
    rw [h5, h6]
    rw [dlLoop_success dest N w.resp.chunks 0 0]
  refine ⟨by rw [hout], by rw [hout], ?_, by rw [hout], ?_⟩
  · rw [hout]
    simp [List.length_flatten, hsum]
  · rw [hout]
    have hie : w.resp.chunks.isEmpty = false := by
      cases hc : w.resp.chunks
      · exact absurd hc hne
      · rfl
    have hq : (N : ℚ) / (N : ℚ) * 100 = 100 := by
      have hz : (N : ℚ) ≠ 0 := by exact_mod_cast hN.ne'
      rw [div_self hz]; ring
    simp [List.getLast?_map, accSums_getLast, hie, hsum, hq]

/-- C4 witness: a 3-byte download in chunks of 2 and 1 ends with result
ok, the full 3-byte file, and a final reported percentage of exactly
100. -/
theorem c4_download_completes_witness :
    (download_file "https://u" "/tmp/f"
        ⟨⟨true, "", true, "200 OK", some 3, [[1, 2], [3]], none⟩,
         true, none⟩).res = .ok ∧
    (download_file "https://u" "/tmp/f"
        ⟨⟨true, "", true, "200 OK", some 3, [[1, 2], [3]], none⟩,
         true, none⟩).file = some [1, 2, 3] ∧
    (download_file "https://u" "/tmp/f"
        ⟨⟨true, "", true, "200 OK", some 3, [[1, 2], [3]], none⟩,
         true, none⟩).reports.getLast? =
      some ⟨100, (3 : ℚ) / 1048576, (3 : ℚ) / 1048576⟩ := by
  have T := c4_download_completes "https://u" "/tmp/f"
    ⟨⟨true, "", true, "200 OK", some 3, [[1, 2], [3]], none⟩, true, none⟩
    3 rfl rfl rfl rfl rfl rfl (by decide) (by decide)
  refine ⟨T.1, T.2.1, ?_⟩
  rw [T.2.2.2.2]
  norm_num

/-- C4 counterexample to the unamended claim: a declared size of `N = 0`
with the empty chunk sequence (which sums to 0) is a successful run that
writes an (empty) 0-byte file but reports NO progress line at all — there
is no final reported percentage, in particular none equal to 100. -/
theorem c4_zero_size_counterexample :
    download_file "https://u" "/tmp/f"
        ⟨⟨true, "", true, "200 OK", some 0, [], none⟩, true, none⟩ =
      ⟨[Event.createFile "/tmp/f"], [], some [], .ok⟩ ∧
    (download_file "https://u" "/tmp/f"
        ⟨⟨true, "", true, "200 OK", some 0, [], none⟩,
         true, none⟩).reports.getLast? = none := by
  constructor <;> rfl

/-- `lookupStr` succeeds exactly when the field is present and is a JSON
string. -/
theorem lookupStr_eq_some (k : String) (fields : List (String × Json)) :
    ∀ s, lookupStr k fields = some s ↔ fields.lookup k = some (.str s) := by
  intro s
  unfold lookupStr
  cases hl : fields.lookup k with
  | none => simp
  | some j => cases j <;> simp


/-- A key absent from an association list's keys looks up to nothing. -/
theorem lookup_eq_none_of_notmem (k : String) :
    ∀ (l : List (String × Json)), k ∉ l.map Prod.fst → l.lookup k = none := by
  intro l
  induction l with
  | nil => intro _; rfl
  | cons kv rest ih =>
    obtain ⟨k2, j2⟩ := kv
    intro h
    simp only [List.map_cons, List.mem_cons] at h
    push_neg at h
    have hb : (k == k2) = false := beq_eq_false_iff_ne.mpr h.1
    simp [List.lookup, hb, ih h.2]

/-- If every consumed field that is present carries a JSON string, and a
filled slot's key does not occur in the remaining fields, the serde field
loop succeeds, completing each slot from the first occurrence of its
key. -/
theorem collectFields_complete (fields : List (String × Json)) :
    ∀ sl : Slots,
      (fields.map Prod.fst).Nodup →
      (sl.v.isSome = true → "version" ∉ fields.map Prod.fst) →
      (sl.d.isSome = true → "downloadUrl" ∉ fields.map Prod.fst) →
      (sl.c.isSome = true → "commitSha" ∉ fields.map Prod.fst) →
      (sl.r.isSome = true → "rehUrl" ∉ fields.map Prod.fst) →
      typeOkAll fields = true →
      collectFields fields sl =
        .ok ⟨sl.v.or (lookupStr "version" fields),
             sl.d.or (lookupStr "downloadUrl" fields),
             sl.c.or (lookupStr "commitSha" fields),
             sl.r.or (lookupStr "rehUrl" fields)⟩ := by
  induction fields with
  | nil =>
    intro sl _ _ _ _ _ _
    obtain ⟨v, d, c, r⟩ := sl
    cases v <;> cases d <;> cases c <;> cases r <;> rfl
  | cons kv rest ih =>
    obtain ⟨k, j⟩ := kv
    intro sl hnd hv hd hc hr hty
    have hndr : (rest.map Prod.fst).Nodup := (List.nodup_cons.mp hnd).2
    have hkrest : k ∉ rest.map Prod.fst := (List.nodup_cons.mp hnd).1
    by_cases hk1 : k = "version"
    · subst hk1
      have hs0 : sl.v = none := by
        cases hvv : sl.v with
        | none => rfl
        | some s =>
          exact absurd (List.mem_map.mpr ⟨("version", j), List.mem_cons_self _ _, rfl⟩)
            (hv (by rw [hvv]; rfl))
      have hjs : j.isStr = true := by
        have h0 : typeOkFor "version" ((("version" : String), j) :: rest) = j.isStr := by
          simp [typeOkFor, List.lookup]
        have h1 := hty
        simp only [typeOkAll, Bool.and_eq_true] at h1
        rw [← h0]; exact h1.1.1.1
      cases j with
      | str sv =>
        have hstep : collectFields ((("version" : String), Json.str sv) :: rest) sl =
            collectFields rest { sl with v := some sv } := by
          simp [collectFields, stepField, setSlot, hs0, Except.map]
        have hvnone : rest.lookup "version" = none :=
          lookup_eq_none_of_notmem _ _ hkrest
        have htyRest : typeOkAll rest = true := by
          simp only [typeOkAll, Bool.and_eq_true] at hty ⊢
          refine ⟨⟨⟨?_, ?_⟩, ?_⟩, ?_⟩
          · simp [typeOkFor, hvnone]
          · have h2 := hty.1.1.2; simpa [typeOkFor, List.lookup] using h2
          · have h2 := hty.1.2; simpa [typeOkFor, List.lookup] using h2
          · have h2 := hty.2; simpa [typeOkFor, List.lookup] using h2
        rw [hstep, ih { sl with v := some sv } hndr
          (fun _ => hkrest)
          (fun h hm => hd h (List.mem_cons_of_mem _ hm))
          (fun h hm => hc h (List.mem_cons_of_mem _ hm))
          (fun h hm => hr h (List.mem_cons_of_mem _ hm))
          htyRest]
        have hl1 : lookupStr "version" ((("version" : String), Json.str sv) :: rest) =
            some sv := by simp [lookupStr, List.lookup]
        have hl2 : lookupStr "downloadUrl" ((("version" : String), Json.str sv) :: rest) =
            lookupStr "downloadUrl" rest := by simp [lookupStr, List.lookup]
        have hl3 : lookupStr "commitSha" ((("version" : String), Json.str sv) :: rest) =
            lookupStr "commitSha" rest := by simp [lookupStr, List.lookup]
        have hl4 : lookupStr "rehUrl" ((("version" : String), Json.str sv) :: rest) =
            lookupStr "rehUrl" rest := by simp [lookupStr, List.lookup]
        rw [hl1, hl2, hl3, hl4]
        have hvr : lookupStr "version" rest = none := by simp [lookupStr, hvnone]
        simp [hvr, hs0, Option.or]
      | null => simp [Json.isStr] at hjs
      | bool b => simp [Json.isStr] at hjs
      | num n => simp [Json.isStr] at hjs
      | arr l => simp [Json.isStr] at hjs
      | obj o => simp [Json.isStr] at hjs
    · by_cases hk2 : k = "downloadUrl"
      · subst hk2
        have hs0 : sl.d = none := by
          cases hvv : sl.d with
          | none => rfl
          | some s =>
            exact absurd (List.mem_map.mpr ⟨("downloadUrl", j), List.mem_cons_self _ _, rfl⟩)
              (hd (by rw [hvv]; rfl))
        have hjs : j.isStr = true := by
          have h0 : typeOkFor "downloadUrl" ((("downloadUrl" : String), j) :: rest) = j.isStr := by
            simp [typeOkFor, List.lookup]
          have h1 := hty
          simp only [typeOkAll, Bool.and_eq_true] at h1
          rw [← h0]; exact h1.1.1.2
        cases j with
        | str sv =>
          have hstep : collectFields ((("downloadUrl" : String), Json.str sv) :: rest) sl =
              collectFields rest { sl with d := some sv } := by
            simp [collectFields, stepField, setSlot, hs0, Except.map]
          have hvnone : rest.lookup "downloadUrl" = none :=
            lookup_eq_none_of_notmem _ _ hkrest
          have htyRest : typeOkAll rest = true := by
            simp only [typeOkAll, Bool.and_eq_true] at hty ⊢
            refine ⟨⟨⟨?_, ?_⟩, ?_⟩, ?_⟩
            · have h2 := hty.1.1.1; simpa [typeOkFor, List.lookup] using h2
            · simp [typeOkFor, hvnone]
            · have h2 := hty.1.2; simpa [typeOkFor, List.lookup] using h2
            · have h2 := hty.2; simpa [typeOkFor, List.lookup] using h2
          rw [hstep, ih { sl with d := some sv } hndr
            (fun h hm => hv h (List.mem_cons_of_mem _ hm))
            (fun _ => hkrest)
            (fun h hm => hc h (List.mem_cons_of_mem _ hm))
            (fun h hm => hr h (List.mem_cons_of_mem _ hm))
            htyRest]
          have hl1 : lookupStr "version" ((("downloadUrl" : String), Json.str sv) :: rest) =
              lookupStr "version" rest := by simp [lookupStr, List.lookup]
          have hl2 : lookupStr "downloadUrl" ((("downloadUrl" : String), Json.str sv) :: rest) =
              some sv := by simp [lookupStr, List.lookup]
          have hl3 : lookupStr "commitSha" ((("downloadUrl" : String), Json.str sv) :: rest) =
              lookupStr "commitSha" rest := by simp [lookupStr, List.lookup]
          have hl4 : lookupStr "rehUrl" ((("downloadUrl" : String), Json.str sv) :: rest) =
              lookupStr "rehUrl" rest := by simp [lookupStr, List.lookup]
          rw [hl1, hl2, hl3, hl4]
          have hvr : lookupStr "downloadUrl" rest = none := by simp [lookupStr, hvnone]
          simp [hvr, hs0, Option.or]
        | null => simp [Json.isStr] at hjs
        | bool b => simp [Json.isStr] at hjs
        | num n => simp [Json.isStr] at hjs
        | arr l => simp [Json.isStr] at hjs
        | obj o => simp [Json.isStr] at hjs
      · by_cases hk3 : k = "commitSha"
        · subst hk3
          have hs0 : sl.c = none := by
            cases hvv : sl.c with
            | none => rfl
            | some s =>
              exact absurd (List.mem_map.mpr ⟨("commitSha", j), List.mem_cons_self _ _, rfl⟩)
                (hc (by rw [hvv]; rfl))
          have hjs : j.isStr = true := by
            have h0 : typeOkFor "commitSha" ((("commitSha" : String), j) :: rest) = j.isStr := by
              simp [typeOkFor, List.lookup]
            have h1 := hty
            simp only [typeOkAll, Bool.and_eq_true] at h1
            rw [← h0]; exact h1.1.2
          cases j with
          | str sv =>
            have hstep : collectFields ((("commitSha" : String), Json.str sv) :: rest) sl =
                collectFields rest { sl with c := some sv } := by
              simp [collectFields, stepField, setSlot, hs0, Except.map]
            have hvnone : rest.lookup "commitSha" = none :=
              lookup_eq_none_of_notmem _ _ hkrest
            have htyRest : typeOkAll rest = true := by
              simp only [typeOkAll, Bool.and_eq_true] at hty ⊢
              refine ⟨⟨⟨?_, ?_⟩, ?_⟩, ?_⟩
              · have h2 := hty.1.1.1; simpa [typeOkFor, List.lookup] using h2
              · have h2 := hty.1.1.2; simpa [typeOkFor, List.lookup] using h2
              · simp [typeOkFor, hvnone]
              · have h2 := hty.2; simpa [typeOkFor, List.lookup] using h2
            rw [hstep, ih { sl with c := some sv } hndr
              (fun h hm => hv h (List.mem_cons_of_mem _ hm))
              (fun h hm => hd h (List.mem_cons_of_mem _ hm))
              (fun _ => hkrest)
              (fun h hm => hr h (List.mem_cons_of_mem _ hm))
              htyRest]
            have hl1 : lookupStr "version" ((("commitSha" : String), Json.str sv) :: rest) =
                lookupStr "version" rest := by simp [lookupStr, List.lookup]
            have hl2 : lookupStr "downloadUrl" ((("commitSha" : String), Json.str sv) :: rest) =
                lookupStr "downloadUrl" rest := by simp [lookupStr, List.lookup]
            have hl3 : lookupStr "commitSha" ((("commitSha" : String), Json.str sv) :: rest) =
                some sv := by simp [lookupStr, List.lookup]
            have hl4 : lookupStr "rehUrl" ((("commitSha" : String), Json.str sv) :: rest) =
                lookupStr "rehUrl" rest := by simp [lookupStr, List.lookup]
            rw [hl1, hl2, hl3, hl4]
            have hvr : lookupStr "commitSha" rest = none := by simp [lookupStr, hvnone]
            simp [hvr, hs0, Option.or]
          | null => simp [Json.isStr] at hjs
          | bool b => simp [Json.isStr] at hjs
          | num n => simp [Json.isStr] at hjs
          | arr l => simp [Json.isStr] at hjs
          | obj o => simp [Json.isStr] at hjs
        · by_cases hk4 : k = "rehUrl"
          · subst hk4
            have hs0 : sl.r = none := by
              cases hvv : sl.r with
              | none => rfl
              | some s =>
                exact absurd (List.mem_map.mpr ⟨("rehUrl", j), List.mem_cons_self _ _, rfl⟩)
                  (hr (by rw [hvv]; rfl))
            have hjs : j.isStr = true := by
              have h0 : typeOkFor "rehUrl" ((("rehUrl" : String), j) :: rest) = j.isStr := by
                simp [typeOkFor, List.lookup]
              have h1 := hty
              simp only [typeOkAll, Bool.and_eq_true] at h1
              rw [← h0]; exact h1.2
            cases j with
            | str sv =>
              have hstep : collectFields ((("rehUrl" : String), Json.str sv) :: rest) sl =
                  collectFields rest { sl with r := some sv } := by
                simp [collectFields, stepField, setSlot, hs0, Except.map]
              have hvnone : rest.lookup "rehUrl" = none :=
                lookup_eq_none_of_notmem _ _ hkrest
              have htyRest : typeOkAll rest = true := by
                simp only [typeOkAll, Bool.and_eq_true] at hty ⊢
                refine ⟨⟨⟨?_, ?_⟩, ?_⟩, ?_⟩
                · have h2 := hty.1.1.1; simpa [typeOkFor, List.lookup] using h2
                · have h2 := hty.1.1.2; simpa [typeOkFor, List.lookup] using h2
                · have h2 := hty.1.2; simpa [typeOkFor, List.lookup] using h2
                · simp [typeOkFor, hvnone]
              rw [hstep, ih { sl with r := some sv } hndr
                (fun h hm => hv h (List.mem_cons_of_mem _ hm))
                (fun h hm => hd h (List.mem_cons_of_mem _ hm))
                (fun h hm => hc h (List.mem_cons_of_mem _ hm))
                (fun _ => hkrest)
                htyRest]
              have hl1 : lookupStr "version" ((("rehUrl" : String), Json.str sv) :: rest) =
                  lookupStr "version" rest := by simp [lookupStr, List.lookup]
              have hl2 : lookupStr "downloadUrl" ((("rehUrl" : String), Json.str sv) :: rest) =
                  lookupStr "downloadUrl" rest := by simp [lookupStr, List.lookup]
              have hl3 : lookupStr "commitSha" ((("rehUrl" : String), Json.str sv) :: rest) =
                  lookupStr "commitSha" rest := by simp [lookupStr, List.lookup]
              have hl4 : lookupStr "rehUrl" ((("rehUrl" : String), Json.str sv) :: rest) =
                  some sv := by simp [lookupStr, List.lookup]
              rw [hl1, hl2, hl3, hl4]
              have hvr : lookupStr "rehUrl" rest = none := by simp [lookupStr, hvnone]
              simp [hvr, hs0, Option.or]
            | null => simp [Json.isStr] at hjs
            | bool b => simp [Json.isStr] at hjs
            | num n => simp [Json.isStr] at hjs
            | arr l => simp [Json.isStr] at hjs
            | obj o => simp [Json.isStr] at hjs
          · have hb1 : ("version" == k) = false :=
              beq_eq_false_iff_ne.mpr (Ne.symm hk1)
            have hb2 : ("downloadUrl" == k) = false :=
              beq_eq_false_iff_ne.mpr (Ne.symm hk2)
            have hb3 : ("commitSha" == k) = false :=
              beq_eq_false_iff_ne.mpr (Ne.symm hk3)
            have hb4 : ("rehUrl" == k) = false :=
              beq_eq_false_iff_ne.mpr (Ne.symm hk4)
            have hstep : collectFields ((k, j) :: rest) sl = collectFields rest sl := by
              simp [collectFields, stepField, hk1, hk2, hk3, hk4]
            have htyRest : typeOkAll rest = true := by
              simp only [typeOkAll, Bool.and_eq_true] at hty ⊢
              refine ⟨⟨⟨?_, ?_⟩, ?_⟩, ?_⟩
              · have h2 := hty.1.1.1; simpa [typeOkFor, List.lookup, hb1] using h2
              · have h2 := hty.1.1.2; simpa [typeOkFor, List.lookup, hb2] using h2
              · have h2 := hty.1.2; simpa [typeOkFor, List.lookup, hb3] using h2
              · have h2 := hty.2; simpa [typeOkFor, List.lookup, hb4] using h2
            rw [hstep, ih sl hndr
              (fun h hm => hv h (List.mem_cons_of_mem _ hm))
              (fun h hm => hd h (List.mem_cons_of_mem _ hm))
              (fun h hm => hc h (List.mem_cons_of_mem _ hm))
              (fun h hm => hr h (List.mem_cons_of_mem _ hm))
              htyRest]
            have hl1 : lookupStr "version" ((k, j) :: rest) =
                lookupStr "version" rest := by simp [lookupStr, List.lookup, hb1]
            have hl2 : lookupStr "downloadUrl" ((k, j) :: rest) =
                lookupStr "downloadUrl" rest := by simp [lookupStr, List.lookup, hb2]
            have hl3 : lookupStr "commitSha" ((k, j) :: rest) =
                lookupStr "commitSha" rest := by simp [lookupStr, List.lookup, hb3]
            have hl4 : lookupStr "rehUrl" ((k, j) :: rest) =
                lookupStr "rehUrl" rest := by simp [lookupStr, List.lookup, hb4]
            rw [hl1, hl2, hl3, hl4]

/-- If some consumed field is present with a non-string value, the serde
field loop fails (with either the invalid-type error at that field or an
earlier error). -/
theorem collectFields_typeErr (fields : List (String × Json)) :
    ∀ sl : Slots, typeOkAll fields = false →
      ∃ e, collectFields fields sl = .error e := by
  induction fields with
  | nil => intro sl h; exact absurd h (by decide)
  | cons kv rest ih =>
    obtain ⟨k, j⟩ := kv
    intro sl h
    by_cases hk1 : k = "version"
    · subst hk1
      cases hsv : sl.v with
      | some s =>
        exact ⟨"duplicate field version",
          by simp [collectFields, stepField, setSlot, hsv, Except.map]⟩
      | none =>
        cases j with
        | str sv =>
          have hx : typeOkAll rest = false := by
            simp only [typeOkAll] at h ⊢
            have e1 : typeOkFor "version" ((("version" : String), Json.str sv) :: rest) =
                true := by simp [typeOkFor, List.lookup, Json.isStr]
            have e2 : typeOkFor "downloadUrl" ((("version" : String), Json.str sv) :: rest) =
                typeOkFor "downloadUrl" rest := by simp [typeOkFor, List.lookup]
            have e3 : typeOkFor "commitSha" ((("version" : String), Json.str sv) :: rest) =
                typeOkFor "commitSha" rest := by simp [typeOkFor, List.lookup]
            have e4 : typeOkFor "rehUrl" ((("version" : String), Json.str sv) :: rest) =
                typeOkFor "rehUrl" rest := by simp [typeOkFor, List.lookup]
            rw [e1, e2, e3, e4] at h
            simp only [Bool.true_and] at h
            rcases Bool.and_eq_false_iff.mp h with h2 | h2
            · rcases Bool.and_eq_false_iff.mp h2 with h3 | h3 <;> simp [h3]
            · simp [h2]
          obtain ⟨e, he⟩ := ih { sl with v := some sv } hx
          refine ⟨e, ?_⟩
          rw [show collectFields ((("version" : String), Json.str sv) :: rest) sl =
              collectFields rest { sl with v := some sv } from
            by simp [collectFields, stepField, setSlot, hsv, Except.map]]
          exact he
        | null => exact ⟨"invalid type for field version", by simp [collectFields, stepField, setSlot, hsv, Except.map]⟩
        | bool b => exact ⟨"invalid type for field version", by simp [collectFields, stepField, setSlot, hsv, Except.map]⟩
        | num n => exact ⟨"invalid type for field version", by simp [collectFields, stepField, setSlot, hsv, Except.map]⟩
        | arr l => exact ⟨"invalid type for field version", by simp [collectFields, stepField, setSlot, hsv, Except.map]⟩
        | obj o => exact ⟨"invalid type for field version", by simp [collectFields, stepField, setSlot, hsv, Except.map]⟩
    · by_cases hk2 : k = "downloadUrl"
      · subst hk2
        cases hsv : sl.d with
        | some s =>
          exact ⟨"duplicate field downloadUrl",
            by simp [collectFields, stepField, setSlot, hsv, Except.map]⟩
        | none =>
          cases j with
          | str sv =>
            have hx : typeOkAll rest = false := by
              simp only [typeOkAll] at h ⊢
              have e1 : typeOkFor "version" ((("downloadUrl" : String), Json.str sv) :: rest) =
                  typeOkFor "version" rest := by simp [typeOkFor, List.lookup]
              have e2 : typeOkFor "downloadUrl" ((("downloadUrl" : String), Json.str sv) :: rest) =
                  true := by simp [typeOkFor, List.lookup, Json.isStr]
              have e3 : typeOkFor "commitSha" ((("downloadUrl" : String), Json.str sv) :: rest) =
                  typeOkFor "commitSha" rest := by simp [typeOkFor, List.lookup]
              have e4 : typeOkFor "rehUrl" ((("downloadUrl" : String), Json.str sv) :: rest) =
                  typeOkFor "rehUrl" rest := by simp [typeOkFor, List.lookup]
              rw [e1, e2, e3, e4] at h
              simp only [Bool.and_true] at h
              rcases Bool.and_eq_false_iff.mp h with h2 | h2
              · rcases Bool.and_eq_false_iff.mp h2 with h3 | h3 <;> simp [h3]
              · simp [h2]
            obtain ⟨e, he⟩ := ih { sl with d := some sv } hx
            refine ⟨e, ?_⟩
            rw [show collectFields ((("downloadUrl" : String), Json.str sv) :: rest) sl =
                collectFields rest { sl with d := some sv } from
              by simp [collectFields, stepField, setSlot, hsv, Except.map]]
            exact he
          | null => exact ⟨"invalid type for field downloadUrl", by simp [collectFields, stepField, setSlot, hsv, Except.map]⟩
          | bool b => exact ⟨"invalid type for field downloadUrl", by simp [collectFields, stepField, setSlot, hsv, Except.map]⟩
          | num n => exact ⟨"invalid type for field downloadUrl", by simp [collectFields, stepField, setSlot, hsv, Except.map]⟩
          | arr l => exact ⟨"invalid type for field downloadUrl", by simp [collectFields, stepField, setSlot, hsv, Except.map]⟩
          | obj o => exact ⟨"invalid type for field downloadUrl", by simp [collectFields, stepField, setSlot, hsv, Except.map]⟩
      · by_cases hk3 : k = "commitSha"
        · subst hk3
          cases hsv : sl.c with
          | some s =>
            exact ⟨"duplicate field commitSha",
              by simp [collectFields, stepField, setSlot, hsv, Except.map]⟩
          | none =>
            cases j with
            | str sv =>
              have hx : typeOkAll rest = false := by
                simp only [typeOkAll] at h ⊢
                have e1 : typeOkFor "version" ((("commitSha" : String), Json.str sv) :: rest) =
                    typeOkFor "version" rest := by simp [typeOkFor, List.lookup]
                have e2 : typeOkFor "downloadUrl" ((("commitSha" : String), Json.str sv) :: rest) =
                    typeOkFor "downloadUrl" rest := by simp [typeOkFor, List.lookup]
                have e3 : typeOkFor "commitSha" ((("commitSha" : String), Json.str sv) :: rest) =
                    true := by simp [typeOkFor, List.lookup, Json.isStr]
                have e4 : typeOkFor "rehUrl" ((("commitSha" : String), Json.str sv) :: rest) =
                    typeOkFor "rehUrl" rest := by simp [typeOkFor, List.lookup]
                rw [e1, e2, e3, e4] at h
                simp only [Bool.and_true] at h
                rcases Bool.and_eq_false_iff.mp h with h2 | h2
                · rcases Bool.and_eq_false_iff.mp h2 with h3 | h3 <;> simp [h3]
                · simp [h2]
              obtain ⟨e, he⟩ := ih { sl with c := some sv } hx
              refine ⟨e, ?_⟩
              rw [show collectFields ((("commitSha" : String), Json.str sv) :: rest) sl =
                  collectFields rest { sl with c := some sv } from
                by simp [collectFields, stepField, setSlot, hsv, Except.map]]
              exact he
            | null => exact ⟨"invalid type for field commitSha", by simp [collectFields, stepField, setSlot, hsv, Except.map]⟩
            | bool b => exact ⟨"invalid type for field commitSha", by simp [collectFields, stepField, setSlot, hsv, Except.map]⟩
            | num n => exact ⟨"invalid type for field commitSha", by simp [collectFields, stepField, setSlot, hsv, Except.map]⟩
            | arr l => exact ⟨"invalid type for field commitSha", by simp [collectFields, stepField, setSlot, hsv, Except.map]⟩
            | obj o => exact ⟨"invalid type for field commitSha", by simp [collectFields, stepField, setSlot, hsv, Except.map]⟩
        · by_cases hk4 : k = "rehUrl"
          · subst hk4
            cases hsv : sl.r with
            | some s =>
              exact ⟨"duplicate field rehUrl",
                by simp [collectFields, stepField, setSlot, hsv, Except.map]⟩
            | none =>
              cases j with
              | str sv =>
                have hx : typeOkAll rest = false := by
                  simp only [typeOkAll] at h ⊢
                  have e1 : typeOkFor "version" ((("rehUrl" : String), Json.str sv) :: rest) =
                      typeOkFor "version" rest := by simp [typeOkFor, List.lookup]
                  have e2 : typeOkFor "downloadUrl" ((("rehUrl" : String), Json.str sv) :: rest) =
                      typeOkFor "downloadUrl" rest := by simp [typeOkFor, List.lookup]
                  have e3 : typeOkFor "commitSha" ((("rehUrl" : String), Json.str sv) :: rest) =
                      typeOkFor "commitSha" rest := by simp [typeOkFor, List.lookup]
                  have e4 : typeOkFor "rehUrl" ((("rehUrl" : String), Json.str sv) :: rest) =
                      true := by simp [typeOkFor, List.lookup, Json.isStr]
                  rw [e1, e2, e3, e4] at h
                  simp only [Bool.and_true] at h
                  rcases Bool.and_eq_false_iff.mp h with h2 | h2
                  · rcases Bool.and_eq_false_iff.mp h2 with h3 | h3 <;> simp [h3]
                  · simp [h2]
                obtain ⟨e, he⟩ := ih { sl with r := some sv } hx
                refine ⟨e, ?_⟩
                rw [show collectFields ((("rehUrl" : String), Json.str sv) :: rest) sl =
                    collectFields rest { sl with r := some sv } from
                  by simp [collectFields, stepField, setSlot, hsv, Except.map]]
                exact he
              | null => exact ⟨"invalid type for field rehUrl", by simp [collectFields, stepField, setSlot, hsv, Except.map]⟩
              | bool b => exact ⟨"invalid type for field rehUrl", by simp [collectFields, stepField, setSlot, hsv, Except.map]⟩
              | num n => exact ⟨"invalid type for field rehUrl", by simp [collectFields, stepField, setSlot, hsv, Except.map]⟩
              | arr l => exact ⟨"invalid type for field rehUrl", by simp [collectFields, stepField, setSlot, hsv, Except.map]⟩
              | obj o => exact ⟨"invalid type for field rehUrl", by simp [collectFields, stepField, setSlot, hsv, Except.map]⟩
          · have hb1 : ("version" == k) = false :=
              beq_eq_false_iff_ne.mpr (Ne.symm hk1)
            have hb2 : ("downloadUrl" == k) = false :=
              beq_eq_false_iff_ne.mpr (Ne.symm hk2)
            have hb3 : ("commitSha" == k) = false :=
              beq_eq_false_iff_ne.mpr (Ne.symm hk3)
            have hb4 : ("rehUrl" == k) = false :=
              beq_eq_false_iff_ne.mpr (Ne.symm hk4)
            have hx : typeOkAll rest = false := by
              simp only [typeOkAll] at h ⊢
              have e1 : typeOkFor "version" ((k, j) :: rest) =
                  typeOkFor "version" rest := by simp [typeOkFor, List.lookup, hb1]
              have e2 : typeOkFor "downloadUrl" ((k, j) :: rest) =
                  typeOkFor "downloadUrl" rest := by simp [typeOkFor, List.lookup, hb2]
              have e3 : typeOkFor "commitSha" ((k, j) :: rest) =
                  typeOkFor "commitSha" rest := by simp [typeOkFor, List.lookup, hb3]
              have e4 : typeOkFor "rehUrl" ((k, j) :: rest) =
                  typeOkFor "rehUrl" rest := by simp [typeOkFor, List.lookup, hb4]
              rw [e1, e2, e3, e4] at h
              exact h
            obtain ⟨e, he⟩ := ih sl hx
            refine ⟨e, ?_⟩
            rw [show collectFields ((k, j) :: rest) sl = collectFields rest sl from
              by simp [collectFields, stepField, hk1, hk2, hk3, hk4]]
            exact he

/-- C7: on a JSON object with distinct field names, the Metadata Fetcher's
decoding succeeds exactly when the four consumed fields `version`,
`downloadUrl`, `commitSha`, `rehUrl` are present as strings (extra fields
ignored), and then returns exactly those four values; a body that is not
a JSON object is likewise rejected. -/
theorem c7_metadata_decode (fields : List (String × Json))
    (hnd : (fields.map Prod.fst).Nodup) :
    (∀ res : Resp, decodeResp (.obj fields) = .ok res ↔
      (fields.lookup "version" = some (.str res.version) ∧
       fields.lookup "downloadUrl" = some (.str res.download_url) ∧
       fields.lookup "commitSha" = some (.str res.commit_sha) ∧
       fields.lookup "rehUrl" = some (.str res.reh_url))) ∧
    (∀ j : Json, j.isObj = false → ∃ e, decodeResp j = .error e) := by
  constructor
  · intro res
    obtain ⟨rv, rd, rc, rr⟩ := res
    constructor
    · intro hok
      cases hty : typeOkAll fields with
      | false =>
        obtain ⟨e, he⟩ := collectFields_typeErr fields ⟨none, none, none, none⟩ hty
        rw [show decodeResp (.obj fields) =
            (match collectFields fields ⟨none, none, none, none⟩ with
             | .error e => .error e
             | .ok ⟨some v, some d, some c, some r⟩ => .ok ⟨v, d, c, r⟩
             | .ok ⟨none, _, _, _⟩ => .error "missing field version"
             | .ok ⟨some _, none, _, _⟩ => .error "missing field downloadUrl"
             | .ok ⟨some _, some _, none, _⟩ => .error "missing field commitSha"
             | .ok ⟨some _, some _, some _, none⟩ => .error "missing field rehUrl"
             : Except String Resp) from rfl, he] at hok
        exact absurd hok (by simp)
      | true =>
        have hc := collectFields_complete fields ⟨none, none, none, none⟩ hnd
          (by simp) (by simp) (by simp) (by simp) hty
        rcases hv0 : lookupStr "version" fields with _ | v0
        · simp [decodeResp, hc, hv0, Option.or] at hok
        · rcases hd0 : lookupStr "downloadUrl" fields with _ | d0
          · simp [decodeResp, hc, hv0, hd0, Option.or] at hok
          · rcases hc0 : lookupStr "commitSha" fields with _ | c0
            · simp [decodeResp, hc, hv0, hd0, hc0, Option.or] at hok
            · rcases hr0 : lookupStr "rehUrl" fields with _ | r0
              · simp [decodeResp, hc, hv0, hd0, hc0, hr0, Option.or] at hok
              · simp [decodeResp, hc, hv0, hd0, hc0, hr0, Option.or] at hok
                obtain ⟨h1, h2, h3, h4⟩ := hok
                subst h1; subst h2; subst h3; subst h4
                exact ⟨(lookupStr_eq_some _ _ _).mp hv0,
                       (lookupStr_eq_some _ _ _).mp hd0,
                       (lookupStr_eq_some _ _ _).mp hc0,
                       (lookupStr_eq_some _ _ _).mp hr0⟩
    · rintro ⟨l1, l2, l3, l4⟩
      have hty : typeOkAll fields = true := by
        simp only [typeOkAll, Bool.and_eq_true]
        refine ⟨⟨⟨?_, ?_⟩, ?_⟩, ?_⟩ <;> simp [typeOkFor, l1, l2, l3, l4, Json.isStr]
      have hc := collectFields_complete fields ⟨none, none, none, none⟩ hnd
        (by simp) (by simp) (by simp) (by simp) hty
      have hv0 : lookupStr "version" fields = some rv := (lookupStr_eq_some _ _ _).mpr l1
      have hd0 : lookupStr "downloadUrl" fields = some rd := (lookupStr_eq_some _ _ _).mpr l2
      have hc0 : lookupStr "commitSha" fields = some rc := (lookupStr_eq_some _ _ _).mpr l3
      have hr0 : lookupStr "rehUrl" fields = some rr := (lookupStr_eq_some _ _ _).mpr l4
      simp [decodeResp, hc, hv0, hd0, hc0, hr0, Option.or]
  · intro j hj
    cases j with
    | obj o => simp [Json.isObj] at hj
    | null => exact ⟨"invalid type: expected a JSON object", rfl⟩
    | bool b => exact ⟨"invalid type: expected a JSON object", rfl⟩
    | num n => exact ⟨"invalid type: expected a JSON object", rfl⟩
    | str s => exact ⟨"invalid type: expected a JSON object", rfl⟩
    | arr l => exact ⟨"invalid type: expected a JSON object", rfl⟩

/-- C7 witness: a response with the four string fields (plus an ignored
extra field) decodes to exactly those values; one with `version` missing
is rejected; a non-object body is rejected. -/
theorem c7_metadata_decode_witness :
    decodeResp (.obj [("version", .str "1.2.3"), ("downloadUrl", .str "u"),
        ("extra", .num 5), ("commitSha", .str "c"), ("rehUrl", .str "r")]) =
      .ok ⟨"1.2.3", "u", "c", "r"⟩ ∧
    decodeResp (.obj [("downloadUrl", .str "u"), ("commitSha", .str "c"),
        ("rehUrl", .str "r")]) = .error "missing field version" := by
  constructor
  · exact ((c7_metadata_decode
      [("version", .str "1.2.3"), ("downloadUrl", .str "u"),
       ("extra", .num 5), ("commitSha", .str "c"), ("rehUrl", .str "r")]
      (by decide)).1 ⟨"1.2.3", "u", "c", "r"⟩).mpr ⟨rfl, rfl, rfl, rfl⟩
  · rfl

/-- `takeWhile` of a list that satisfies `p` followed by a first failing
element is exactly that prefix. -/
theorem takeWhile_append_stop {α : Type} (p : α → Bool) :
    ∀ (xs : List α) (y : α) (ys : List α),
      (∀ x ∈ xs, p x = true) → p y = false →
      (xs ++ y :: ys).takeWhile p = xs := by
  intro xs
  induction xs with
  | nil => intro y ys _ hy; simp [List.takeWhile, hy]
  | cons a rest ih =>
    intro y ys hxs hy
    have ha : p a = true := hxs a (List.mem_cons_self _ _)
    simp only [List.cons_append, List.takeWhile, ha, List.append_eq]
    rw [ih y ys (fun x hx => hxs x (List.mem_cons_of_mem _ hx)) hy]

/-- Entries of the install directory survive into the listing `back_file`
iterates over. -/
theorem mem_ensureBack (st : DirState) (e : DirEntry) (he : e ∈ st.entries) :
    e ∈ (ensureBack st).entries := by
  unfold ensureBack
  split
  · exact he
  · exact List.mem_append_left _ he

/-- C1: in every execution of `install` whose event trace contains a copy
into the install directory, the home directory was resolved and every
backup rename of a pre-existing artifact/icon file (backup-target entry
of the install directory) appears in the trace strictly before the first
copy — the Backup Step has completed before anything new lands. -/
theorem c1_backup_before_copies (ap v tp : String) (w : IWorld)
    (hcopy : ∃ e ∈ (install ap v tp w).1, e.isCopy = true) :
    ∃ h, w.home = some h ∧
      ∀ ent ∈ w.destState.entries, backupTarget ent = true →
        Event.rename (pjoin (destDirOf h) ent.name)
            (pjoin (pjoin (destDirOf h) "back") (ent.name ++ ".bak"))
          ∈ (install ap v tp w).1.takeWhile (fun e => !e.isCopy) := by
  cases h1 : w.metaOk with
  | false => simp [install, h1, Event.isCopy] at hcopy
  | true =>
  cases h2 : w.setPermsOk with
  | false => simp [install, h1, h2, Event.isCopy] at hcopy
  | true =>
  cases h3 : w.spawnOk with
  | false => simp [install, h1, h2, h3, Event.isCopy] at hcopy
  | true =>
  cases h4 : w.extractSuccess with
  | false => simp [install, h1, h2, h3, h4, Event.isCopy] at hcopy
  | true =>
  cases hh : w.home with
  | none => simp [install, h1, h2, h3, h4, hh, Event.isCopy] at hcopy
  | some hm =>
  cases h5 : w.createDestOk with
  | false => simp [install, h1, h2, h3, h4, hh, h5, Event.isCopy] at hcopy
  | true =>
  cases hbf : (back_file (destDirOf hm) w.renameOk w.destState).2.2 with
  | err m =>
    simp [install, h1, h2, h3, h4, hh, h5, hbf, Event.isCopy] at hcopy
    obtain ⟨e, he, hec⟩ := hcopy
    have hec2 : e.isCopy = true := hec
    have hno := back_file_no_copy (destDirOf hm) w.renameOk w.destState e he
    rw [hno] at hec2
    exact Bool.noConfusion hec2
  | panicked m =>
    simp [install, h1, h2, h3, h4, hh, h5, hbf, Event.isCopy] at hcopy
    obtain ⟨e, he, hec⟩ := hcopy
    have hec2 : e.isCopy = true := hec
    have hno := back_file_no_copy (destDirOf hm) w.renameOk w.destState e he
    rw [hno] at hec2
    exact Bool.noConfusion hec2
  | ok =>
  cases h6 : w.copyIconOk with
  | false =>
    simp [install, h1, h2, h3, h4, hh, h5, hbf, h6, Event.isCopy] at hcopy
    obtain ⟨e, he, hec⟩ := hcopy
    have hec2 : e.isCopy = true := hec
    have hno := back_file_no_copy (destDirOf hm) w.renameOk w.destState e he
    rw [hno] at hec2
    exact Bool.noConfusion hec2
  | true =>
  have hcreate : (w.destState.entries.any fun e => e.name == "back" && !e.isDir) = false := by
    cases hcr : (w.destState.entries.any fun e => e.name == "back" && !e.isDir) with
    | false => rfl
    | true =>
      have hx : (back_file (destDirOf hm) w.renameOk w.destState).2.2 =
          .err "failed to create back directory" := by simp [back_file, hcr]
      rw [hbf] at hx
      exact absurd hx (by simp)
  have hblok : (backLoop (destDirOf hm) w.renameOk (ensureBack w.destState).entries
      (ensureBack w.destState)).2.2 = .ok := by
    have hx : (back_file (destDirOf hm) w.renameOk w.destState).2.2 =
        (backLoop (destDirOf hm) w.renameOk (ensureBack w.destState).entries
          (ensureBack w.destState)).2.2 := by simp [back_file, hcreate]
    rw [← hx, hbf]
  have hbf1 : (back_file (destDirOf hm) w.renameOk w.destState).1 =
      Event.createDirAll (pjoin (destDirOf hm) "back") ::
        (backLoop (destDirOf hm) w.renameOk (ensureBack w.destState).entries
          (ensureBack w.destState)).1 := by
    simp [back_file, hcreate]
  have hall : ∀ x ∈ ([Event.setPerms ap 493,
        Event.spawn ap "--appimage-extract" tp,
        Event.createDirAll (destDirOf hm)] ++
        (back_file (destDirOf hm) w.renameOk w.destState).1),
      (!x.isCopy) = true := by
    intro x hx
    rcases List.mem_append.mp hx with hx | hx
    · simp only [List.mem_cons, List.mem_singleton, List.not_mem_nil,
        or_false] at hx
      rcases hx with hx | hx | hx <;> subst hx <;> rfl
    · rw [back_file_no_copy (destDirOf hm) w.renameOk w.destState x hx]
      rfl
  have main : ∀ (rest : List Event),
      (install ap v tp w).1 =
        ([Event.setPerms ap 493, Event.spawn ap "--appimage-extract" tp,
          Event.createDirAll (destDirOf hm)] ++
         (back_file (destDirOf hm) w.renameOk w.destState).1) ++
        (Event.copy (pjoin (pjoin tp "squashfs-root") "code.png")
           (pjoin (destDirOf hm) "code.png") :: rest) →
      ∃ h, some hm = some h ∧
        ∀ ent ∈ w.destState.entries, backupTarget ent = true →
          Event.rename (pjoin (destDirOf h) ent.name)
              (pjoin (pjoin (destDirOf h) "back") (ent.name ++ ".bak"))
            ∈ (install ap v tp w).1.takeWhile (fun e => !e.isCopy) := by
    intro rest htr
    refine ⟨hm, rfl, ?_⟩
    intro ent hent htgt
    have hstop : (!(Event.copy (pjoin (pjoin tp "squashfs-root") "code.png")
        (pjoin (destDirOf hm) "code.png")).isCopy) = false := rfl
    rw [htr, takeWhile_append_stop (fun e => !e.isCopy) _ _ rest hall hstop]
    refine List.mem_append_right _ ?_
    rw [hbf1]
    exact List.mem_cons_of_mem _
      (backLoop_complete _ _ _ _ hblok ent (mem_ensureBack _ _ hent) htgt)
  rcases hfn : rustFileName ap with _ | name
  · exact main [] (by
      simp [install, h1, h2, h3, h4, hh, h5, hbf, h6, hfn])
  · cases h7 : w.copyAppOk with
    | false =>
      exact main [] (by
        simp [install, h1, h2, h3, h4, hh, h5, hbf, h6, hfn, h7])
    | true =>
      cases h8 : w.writeDesktopOk with
      | false =>
        exact main [Event.copy ap (pjoin (destDirOf hm) name)] (by
          simp [install, h1, h2, h3, h4, hh, h5, hbf, h6, hfn, h7, h8,
            echo_2_desktop, OsString.toStr])
      | true =>
        exact main [Event.copy ap (pjoin (destDirOf hm) name),
            Event.writeFile (pjoin hm ".local/share/applications/cursor.desktop")
              (desktopContents (pjoin (destDirOf hm) name)
                (pjoin (destDirOf hm) "code.png"))] (by
          simp [install, h1, h2, h3, h4, hh, h5, hbf, h6, hfn, h7, h8,
            echo_2_desktop, OsString.toStr])


set_option maxRecDepth 1000000 in
/-- C1 witness: a concrete fully-successful install over a directory
holding a previous `cursor.AppImage` and `code.png`; the trace contains
copies, and both backup renames appear before the first copy. -/
theorem c1_backup_before_copies_witness :
    ∃ h, installWorld1.home = some h ∧
      ∀ ent ∈ installWorld1.destState.entries, backupTarget ent = true →
        Event.rename (pjoin (destDirOf h) ent.name)
            (pjoin (pjoin (destDirOf h) "back") (ent.name ++ ".bak"))
          ∈ (install "/tmp/cursorup_temp/cursor.AppImage" "1.0"
              "/tmp/cursorup_temp" installWorld1).1.takeWhile
                (fun e => !e.isCopy) :=
  c1_backup_before_copies "/tmp/cursorup_temp/cursor.AppImage" "1.0"
    "/tmp/cursorup_temp" installWorld1 (by decide)

/-- C8 (as amended): once the metadata fetch has succeeded — the point at
which the scratch-directory guard is created — every exit path of `run`
ends with the guard's release: the cleanup message and the attempted
recursive deletion of the scratch directory; and every observable of the
run (its whole event trace and its result) is identical whether that
deletion succeeds or fails, so a deletion failure is silently discarded:
never propagated, never masking the run's primary outcome — and also
never logged. -/
theorem c8_guard_cleanup (w : World) :
    (∀ md, w.metadataRes = Except.ok md →
      ∃ pre, (run w).1 = pre ++
        [Event.printLine ("Cleaning up temporary directory: \"" ++
           w.tmpPath ++ "\""),
         Event.removeDirAll w.tmpPath]) ∧
    (∀ b1 b2 : Bool,
      run { w with removeOk := b1 } = run { w with removeOk := b2 }) := by
  constructor
  · intro md hmd
    simp only [run, hmd]
    exact ⟨_, rfl⟩
  · intro b1 b2
    rfl

/-- C8 witness: a concrete run (metadata fetched, scratch-dir creation
fails) whose trace ends with the guard's cleanup events. -/
theorem c8_guard_cleanup_witness :
    ∃ pre, (run runWorld1).1 = pre ++
      [Event.printLine ("Cleaning up temporary directory: \"" ++
         runWorld1.tmpPath ++ "\""),
       Event.removeDirAll runWorld1.tmpPath] :=
  (c8_guard_cleanup runWorld1).1 ⟨"1.0", "https://d/c.AppImage", "sha", "reh"⟩ rfl

/-- C8 counterexample to the claim's "deletion failures are logged": a
run in which the deletion fails is observationally identical — event for
event, including every printed line — to the same run in which it
succeeds; the only output of the guard is the unconditional cleanup
message, so the failure is not logged anywhere (the code discards it with
`let _ = ...`). -/
theorem c8_cleanup_failure_not_logged :
    run { runWorld1 with removeOk := false } =
      run { runWorld1 with removeOk := true } ∧
    (run { runWorld1 with removeOk := false }).1 =
      [Event.printLine "Cleaning up temporary directory: \"/tmp/cursorup_temp\"",
       Event.removeDirAll "/tmp/cursorup_temp"] ∧
    (run { runWorld1 with removeOk := false }).2 =
      .err "failed to create temp directory" := by
  refine ⟨rfl, rfl, rfl⟩
